import Mathlib

/-!
Shallow embedding of `src/teensy_sync.py` (Teensy Sync Broadcaster).

Strings are modelled as `List Char` (`Str`).  Python's `str.split()`,
`str.strip()`, `str.lower()`, `str.startswith`, `" ".join` and `in`
(substring test) are translated below as executable Lean functions.
The serial transport is external to the repository; its behaviour is
supplied as explicit data (open outcome, write outcome, raw lines read),
and the I/O performed by `discover_boards` / `broadcast_command` is
recorded in explicit result records, so that the control flow of the
source — including its `try/except/finally` structure — is reflected in
total functions.
-/

abbrev Str := List Char

/-- Python `str.isspace` characters relevant to `split()`/`strip()`
(ASCII whitespace; the repository's data is ASCII). -/
def pyIsSpace (c : Char) : Bool :=
  c = ' ' || c = '\t' || c = '\n' || c = '\r' || c = '\x0b' || c = '\x0c'

/-- Drop leading whitespace (one side of Python `str.strip()`). -/
def pyStripLeft : Str → Str
  | [] => []
  | c :: t => if pyIsSpace c then pyStripLeft t else c :: t

/-- Python `str.strip()`: drop whitespace from both ends. -/
def pyStrip (s : Str) : Str :=
  ((pyStripLeft ((pyStripLeft s).reverse)).reverse)

/-- Worker for Python `str.split()` (no separator argument): `acc` holds the
current word reversed; whitespace runs end words, empty words are dropped. -/
def pySplitAux : Str → Str → List Str
  | [], acc => if acc = [] then [] else [acc.reverse]
  | c :: t, acc =>
    if pyIsSpace c then
      if acc = [] then pySplitAux t [] else acc.reverse :: pySplitAux t []
    else
      pySplitAux t (c :: acc)

/-- Python `line.split()`: split on whitespace runs, dropping empty tokens. -/
def pySplit (s : Str) : List Str := pySplitAux s []

/-- Python `" ".join(tokens)`. -/
def pyJoinSp : List Str → Str
  | [] => []
  | [w] => w
  | w :: t => w ++ ' ' :: pyJoinSp t

/-- Python `parts.index(w)` wrapped in `try/except ValueError`: index of the
first occurrence, `none` when absent. -/
def tokIndex : List Str → Str → Option Nat
  | [], _ => none
  | t :: rest, w => if t = w then some 0 else (tokIndex rest w).map (· + 1)

/-- Python `needle in hay` (substring containment). -/
def strContains : Str → Str → Bool
  | [], needle => needle = []
  | c :: t, needle => needle.isPrefixOf (c :: t) || strContains t needle

/-- Python `str.lower()` (ASCII range, which covers all literals the
filter compares against). -/
def pyLower (s : Str) : Str := s.map Char.toLower

/-- `parse_id_line` (src/teensy_sync.py lines 75–90).  Expected shape:
`ID <BOARD_ID> FW <FW_VERSION> CAPS <CAPS...>`.  The Python `ValueError`
from `parts.index` is the `none` branch of `tokIndex`; the bounds guard
makes the subsequent indexing total, as in the source. -/
def parse_id_line (line : Str) : Option (Str × Str × Str) :=
  if ("ID ".data).isPrefixOf line then
    let parts := pySplit line
    match tokIndex parts ("FW".data), tokIndex parts ("CAPS".data) with
    | some i_fw, some i_caps =>
      if parts.length < 2 ∨ i_fw + 1 ≥ parts.length then none
      else
        let board_id := parts.getD 1 []
        let fw := parts.getD (i_fw + 1) []
        let caps := if i_caps + 1 < parts.length
          then pyJoinSp (parts.drop (i_caps + 1)) else []
        some (board_id, fw, caps)
    | _, _ => none
  else none

/-- `is_usb_serial_port` (src/teensy_sync.py lines 93–120), as a function of
the candidate's `description`, `hwid` and `manufacturer` strings (the
source reads exactly these three attributes, defaulting to `""`). -/
def is_usb_serial_port (description hwid0 manufacturer : Str) : Bool :=
  let desc := pyLower description
  let hwid := pyLower hwid0
  let manuf := pyLower manufacturer
  -- Strong accepts
  if strContains desc ("teensy".data) || strContains manuf ("teensy".data)
      || strContains hwid ("teensy".data) then true
  else if strContains desc ("usb serial device".data) then true
  else if strContains desc ("usb".data) && !strContains desc ("bluetooth".data) then true
  else if strContains hwid ("usb".data) && !strContains hwid ("bluetooth".data) then true
  -- Strong rejects
  else if strContains desc ("bluetooth".data) || strContains hwid ("bluetooth".data) then false
  else if strContains desc ("modem".data) || strContains hwid ("modem".data) then false
  else if strContains desc ("standard serial over bluetooth".data) then false
  else false

/-- `is_usb_serial_port` with the three explicit reject rules (lines
112–118 of the source) deleted, for the redundancy comparison of the
"Strong rejects" block: every deleted branch returned `False`, which is
also the default. -/
def is_usb_serial_port_no_rejects (description hwid0 manufacturer : Str) : Bool :=
  let desc := pyLower description
  let hwid := pyLower hwid0
  let manuf := pyLower manufacturer
  if strContains desc ("teensy".data) || strContains manuf ("teensy".data)
      || strContains hwid ("teensy".data) then true
  else if strContains desc ("usb serial device".data) then true
  else if strContains desc ("usb".data) && !strContains desc ("bluetooth".data) then true
  else if strContains hwid ("usb".data) && !strContains hwid ("bluetooth".data) then true
  else false

/-- A candidate serial port as enumerated by `list_ports.comports()`:
`device`, `description`, `hwid`, `manufacturer` (empty when the platform
reports `None`, matching the `or ""` defaults in the source). -/
structure Candidate where
  device : Str
  description : Str
  hwid : Str
  manufacturer : Str
deriving DecidableEq, Inhabited

/-- `Board` (src/teensy_sync.py lines 37–43). -/
structure Board where
  port : Str
  board_id : Str
  fw : Str
  caps : Str
  desc : Str
deriving DecidableEq, Inhabited

/-- Outcome of `open_port` for one candidate: the constructor call either
returns a handle or raises (`except Exception: continue`). -/
inductive OpenOutcome where
  | ok
  | fail
deriving DecidableEq, Inhabited

/-- Outcome of `ser.write(...)`: success, `serial.SerialTimeoutException`,
or any other exception — the source skips the candidate on either failure. -/
inductive WriteOutcome where
  | ok
  | timeout
  | err
deriving DecidableEq, Inhabited

/-- Transport behaviour observed by `discover_boards` for one candidate:
whether `open_port` succeeds, how the challenge write ends, and the raw
decoded lines produced by the two `read_lines_for` passes.  (`readline`
bytes are decoded with `errors="ignore"`, so decoding is total; a raw
element here is one decoded line, possibly empty or garbled.) -/
structure ScanBehavior where
  openRes : OpenOutcome
  writeRes : WriteOutcome
  rawLines1 : List Str
  rawLines2 : List Str
deriving DecidableEq, Inhabited

/-- `read_lines_for` (src/teensy_sync.py lines 56–72), as a function of the
raw decoded lines the transport yields during the window: each is
stripped and kept only when non-empty.  A `readline` exception breaks the
loop, so the function always returns the lines collected so far — in the
model, the supplied raw-line list is that collected sequence. -/
def read_lines_for (raw : List Str) : List Str :=
  (raw.map pyStrip).filter (fun l => l ≠ [])

/-- The `for ln in lines: if ln.startswith("ID "): id_line = ln; break`
scan in `discover_boards`. -/
def findIdLine : List Str → Option Str
  | [] => none
  | l :: t => if ("ID ".data).isPrefixOf l then some l else findIdLine t

/-- The body of the per-candidate loop of `discover_boards`
(src/teensy_sync.py lines 141–196): open, clear buffers (best-effort),
settle, write `DISCOVER?`, read twice looking for an `ID ` line, parse.
Every failure path yields no board (`continue`), never an exception. -/
def processCandidate (c : Candidate) (b : ScanBehavior) : Option Board :=
  match b.openRes with
  | .fail => none
  | .ok =>
    match b.writeRes with
    | .timeout => none
    | .err => none
    | .ok =>
      let lines := read_lines_for b.rawLines1
      let id_line := match findIdLine lines with
        | some l => some l
        | none => findIdLine (read_lines_for b.rawLines2)
      match id_line with
      | none => none
      | some l =>
        match parse_id_line l with
        | none => none
        | some (bid, fw, caps) =>
          some ⟨c.device, bid, fw, caps, c.description⟩

/-- Whether the per-candidate loop body closes the transport.  The source
wraps everything after a successful `open_port` in `try ... finally:
ser.close()`, so each control path below ends in a close; an open failure
leaves no handle to close. -/
def scanCloses (b : ScanBehavior) : Bool :=
  match b.openRes with
  | .fail => false
  | .ok =>
    match b.writeRes with
    | .timeout => true   -- `continue` still runs the `finally`
    | .err => true
    | .ok => true        -- normal fall-through to `finally`

/-- Whether the per-candidate loop body opened a transport. -/
def scanOpens (b : ScanBehavior) : Bool :=
  match b.openRes with
  | .fail => false
  | .ok => true

/-- The `boards` list accumulated by the scan loop, before de-duplication:
in-scope candidates in enumeration order, one optional board each. -/
def discoverRaw (cands : List (Candidate × ScanBehavior)) : List Board :=
  (cands.filter (fun cb =>
      is_usb_serial_port cb.1.description cb.1.hwid cb.1.manufacturer)).filterMap
    (fun cb => processCandidate cb.1 cb.2)

/-- The `# De-dupe by board_id` loop (src/teensy_sync.py lines 198–206):
keep the first board for each `board_id`; `seen` is the set of ids kept. -/
def dedupeBoards : List Board → List Str → List Board
  | [], _ => []
  | b :: t, seen =>
    if b.board_id ∈ seen then dedupeBoards t seen
    else b :: dedupeBoards t (b.board_id :: seen)

/-- `discover_boards` (src/teensy_sync.py lines 132–206), with the
platform's candidate enumeration and per-candidate transport behaviour
supplied as input. -/
def discover_boards (cands : List (Candidate × ScanBehavior)) : List Board :=
  dedupeBoards (discoverRaw cands) []

/-- Transport behaviour seen by `broadcast_command` for one board:
the `open_port` outcome, the payload-write outcome, and the raw decoded
lines available during the acknowledgement read window. -/
structure BcastBehavior where
  openRes : OpenOutcome
  writeRes : WriteOutcome
  rawAck : List Str
deriving DecidableEq, Inhabited

/-- An opened transport handle in the broadcast, identified by the index
`idx` of the board (in the input list) whose open created it; distinct
opens yield distinct handles. -/
structure Handle where
  port : Str
  idx : Nat
  writeRes : WriteOutcome
  rawAck : List Str
deriving DecidableEq, Inhabited

/-- The handle produced by a successful `open_port(b.port, ...)` for the
board at position `i`. -/
def mkHandle (i : Nat) (b : Board) (beh : BcastBehavior) : Handle :=
  ⟨b.port, i, beh.writeRes, beh.rawAck⟩

/-- Python `dict` assignment `sers[board_id] = ser`: replace the value at
an existing key in place (dicts keep the original insertion position),
else append a new entry. -/
def updateTable : List (Str × Handle) → Str → Handle → List (Str × Handle)
  | [], k, v => [(k, v)]
  | (k0, v0) :: rest, k, v =>
    if k0 = k then (k, v) :: rest else (k0, v0) :: updateTable rest k v

/-- Python `sers.get(board_id)`. -/
def listLookup : List (Str × Handle) → Str → Option Handle
  | [], _ => none
  | (k0, v0) :: rest, k => if k0 = k then some v0 else listLookup rest k

/-- Result of the open loop of `broadcast_command` (src/teensy_sync.py
lines 214–218): the `sers` dict, the open warnings in order, and the
indices of boards whose `open_port` succeeded. -/
structure OpenPhase where
  tbl : List (Str × Handle)
  openWarnings : List (Str × Str)
  opened : List Nat
deriving DecidableEq, Inhabited

/-- The open loop: one `open_port` attempt per board in list order; a
success stores the handle under `board_id` (displacing any earlier handle
with the same id), a failure prints a warning and moves on. -/
def bcOpenGo : Nat → List (Str × Handle) → List (Board × BcastBehavior) → OpenPhase
  | _, tbl, [] => ⟨tbl, [], []⟩
  | i, tbl, (b, beh) :: rest =>
    match beh.openRes with
    | .ok =>
      let r := bcOpenGo (i + 1) (updateTable tbl b.board_id (mkHandle i b beh)) rest
      ⟨r.tbl, r.openWarnings, i :: r.opened⟩
    | .fail =>
      let r := bcOpenGo (i + 1) tbl rest
      ⟨r.tbl, (b.board_id, b.port) :: r.openWarnings, r.opened⟩

/-- The open phase starting from the empty dict. -/
def bcOpenPhase (boards : List (Board × BcastBehavior)) : OpenPhase :=
  bcOpenGo 0 [] boards

/-- Python `lines[-8:]`. -/
def lastN (n : Nat) (l : List Str) : List Str := l.drop (l.length - n)

/-- Observable effects of one `broadcast_command` call.  `writes` records
every `ser.write(payload)` call as (handle index, payload characters) —
the bytes passed are the UTF-8 encoding of those characters, and UTF-8
encoding is injective.  `closed` records the handles closed by the
`finally` block. -/
structure BcastResult where
  openWarnings : List (Str × Str)
  opened : List Nat
  noPorts : Bool
  writes : List (Nat × Str)
  writeWarnings : List (Str × Str)
  flushed : List Nat
  traces : List (Str × List Str)
  closed : List Nat
deriving DecidableEq, Inhabited

/-- `broadcast_command` (src/teensy_sync.py lines 209–263).  After the
open loop: early return when the dict is empty (the `finally` then closes
nothing); otherwise frame `cmd.strip() + "\n"`, write it to every dict
entry (warning on write timeout/error), flush all, read acknowledgement
lines per entry (a trace entry only when at least one line arrived,
bounded to the last 8), and close every dict entry in the `finally`. -/
def broadcast_command (boards : List (Board × BcastBehavior)) (cmd : Str) : BcastResult :=
  let op := bcOpenPhase boards
  let tbl := op.tbl
  if tbl = [] then
    ⟨op.openWarnings, op.opened, true, [], [], [], [], []⟩
  else
    let payload := pyStrip cmd ++ ['\n']
    let writes := tbl.map (fun e => (e.2.idx, payload))
    let writeWarnings := tbl.filterMap (fun e =>
      match e.2.writeRes with
      | .ok => none
      | .timeout => some (e.1, e.2.port)
      | .err => some (e.1, e.2.port))
    let flushed := tbl.map (fun e => e.2.idx)
    let traces := tbl.filterMap (fun e =>
      let lines := read_lines_for e.2.rawAck
      if lines = [] then none else some (e.1, lastN 8 lines))
    let closed := tbl.map (fun e => e.2.idx)
    ⟨op.openWarnings, op.opened, false, writes, writeWarnings, flushed, traces, closed⟩

/-! ### Lemmas about the string model -/

theorem pySplitAux_space {c : Char} (hc : pyIsSpace c = true) (s acc : Str) :
    pySplitAux (c :: s) acc =
      if acc = [] then pySplitAux s [] else acc.reverse :: pySplitAux s [] := by
  simp [pySplitAux, hc]

theorem pySplitAux_word (w : Str) (hw : ∀ c ∈ w, pyIsSpace c = false) :
    ∀ s acc, pySplitAux (w ++ s) acc = pySplitAux s (w.reverse ++ acc) := by
  induction w with
  | nil => intro s acc; simp
  | cons c t ih =>
    intro s acc
    have hc : pyIsSpace c = false := hw c (by simp)
    have ht : ∀ d ∈ t, pyIsSpace d = false := fun d hd => hw d (by simp [hd])
    show pySplitAux (c :: (t ++ s)) acc = _
    rw [pySplitAux, if_neg (by simp [hc]), ih ht s (c :: acc)]
    simp [List.append_assoc]

theorem pySplit_word_space (w : Str) (hwne : w ≠ []) (hw : ∀ c ∈ w, pyIsSpace c = false)
    (s : Str) :
    pySplitAux (w ++ ' ' :: s) [] = w :: pySplitAux s [] := by
  rw [pySplitAux_word w hw (' ' :: s) []]
  have hrev : w.reverse ++ ([] : Str) ≠ [] := by simp [hwne]
  rw [pySplitAux_space (by decide)]
  simp [hwne]

theorem pySplit_id_format (bid fw C : Str) (hb : bid ≠ [])
    (hbs : ∀ c ∈ bid, pyIsSpace c = false) (hf : fw ≠ [])
    (hfs : ∀ c ∈ fw, pyIsSpace c = false) :
    pySplit ("ID ".data ++ bid ++ " FW ".data ++ fw ++ " CAPS ".data ++ C)
      = "ID".data :: bid :: "FW".data :: fw :: "CAPS".data :: pySplit C := by
  have hline : "ID ".data ++ bid ++ " FW ".data ++ fw ++ " CAPS ".data ++ C
      = "ID".data ++ ' ' :: (bid ++ ' ' :: ("FW".data ++ ' ' ::
          (fw ++ ' ' :: ("CAPS".data ++ ' ' :: C)))) := by
    simp [List.append_assoc]
  rw [pySplit, hline]
  rw [pySplit_word_space ("ID".data) (by decide) (by decide)]
  rw [pySplit_word_space bid hb hbs]
  rw [pySplit_word_space ("FW".data) (by decide) (by decide)]
  rw [pySplit_word_space fw hf hfs]
  rw [pySplit_word_space ("CAPS".data) (by decide) (by decide)]
  rfl

theorem tokIndex_cons (t : Str) (rest : List Str) (w : Str) :
    tokIndex (t :: rest) w = if t = w then some 0 else (tokIndex rest w).map (· + 1) := rfl

theorem pyJoinSp_nil : pyJoinSp [] = [] := rfl

example : parse_id_line ("ID X FW".data) = none := by decide
example : parse_id_line ("HELLO there".data) = none := by decide
example : parse_id_line [] = none := by decide
example : parse_id_line ("ID B1 FW 1.2 CAPS wave,row0".data)
    = some ("B1".data, "1.2".data, "wave,row0".data) := by decide
example : is_usb_serial_port ("USB Serial Device (COM7)".data) [] [] = true := by decide
example : is_usb_serial_port ("Standard Serial over Bluetooth link (COM4)".data) [] []
    = false := by decide

/-! ### Claim theorems -/

/-- C2: `parse_id_line` returns `none` unless the line starts with the
literal `"ID "`, the whitespace-split token list contains both `"FW"` and
`"CAPS"`, and at least one token follows the first `"FW"`; on success the
board id is token 1, the firmware version is the token after the first
`"FW"`, and the capabilities are the tokens after the first `"CAPS"`
rejoined with single spaces (empty when `"CAPS"` is last).  The listed
malformed inputs yield `none`; the function is total, so no input raises. -/
theorem c2_parse_identity (line : Str) :
    (("ID ".data).isPrefixOf line = false → parse_id_line line = none)
    ∧ (tokIndex (pySplit line) ("FW".data) = none → parse_id_line line = none)
    ∧ (tokIndex (pySplit line) ("CAPS".data) = none → parse_id_line line = none)
    ∧ (∀ i, tokIndex (pySplit line) ("FW".data) = some i →
        (pySplit line).length ≤ i + 1 → parse_id_line line = none)
    ∧ (∀ bid fw caps, parse_id_line line = some (bid, fw, caps) →
        ∃ i j, tokIndex (pySplit line) ("FW".data) = some i
          ∧ tokIndex (pySplit line) ("CAPS".data) = some j
          ∧ i + 1 < (pySplit line).length
          ∧ bid = (pySplit line).getD 1 []
          ∧ fw = (pySplit line).getD (i + 1) []
          ∧ caps = pyJoinSp ((pySplit line).drop (j + 1)))
    ∧ parse_id_line ("ID X FW".data) = none
    ∧ parse_id_line ("HELLO there".data) = none
    ∧ parse_id_line [] = none := by
  refine ⟨?_, ?_, ?_, ?_, ?_, by decide, by decide, by decide⟩
  · intro h
    simp [parse_id_line, h]
  · intro h
    by_cases hp : ("ID ".data).isPrefixOf line
    · simp [parse_id_line, hp, h]
    · simp [parse_id_line, hp]
  · intro h
    by_cases hp : ("ID ".data).isPrefixOf line
    · cases hf : tokIndex (pySplit line) ("FW".data) <;>
        simp [parse_id_line, hp, h, hf]
    · simp [parse_id_line, hp]
  · intro i hi hlen
    by_cases hp : ("ID ".data).isPrefixOf line
    · cases hc : tokIndex (pySplit line) ("CAPS".data) with
      | none => simp [parse_id_line, hp, hi, hc]
      | some j =>
        simp only [parse_id_line, hp, if_true, hi, hc]
        rw [if_pos (Or.inr (by omega))]
    · simp [parse_id_line, hp]
  · intro bid fw caps h
    by_cases hp : ("ID ".data).isPrefixOf line
    · cases hi : tokIndex (pySplit line) ("FW".data) with
      | none => simp [parse_id_line, hp, hi] at h
      | some i =>
        cases hc : tokIndex (pySplit line) ("CAPS".data) with
        | none => simp [parse_id_line, hp, hi, hc] at h
        | some j =>
          simp only [parse_id_line, hp, if_true, hi, hc] at h
          by_cases hg : (pySplit line).length < 2 ∨ i + 1 ≥ (pySplit line).length
          · rw [if_pos hg] at h
            exact absurd h (by simp)
          · rw [if_neg hg] at h
            refine ⟨i, j, rfl, rfl, by omega, ?_⟩
            have hcaps : (if j + 1 < (pySplit line).length
                then pyJoinSp ((pySplit line).drop (j + 1)) else [])
                = pyJoinSp ((pySplit line).drop (j + 1)) := by
              by_cases hj : j + 1 < (pySplit line).length
              · rw [if_pos hj]
              · rw [if_neg hj, List.drop_eq_nil_of_le (by omega), pyJoinSp_nil]
            rw [hcaps] at h
            simp only [Option.some.injEq, Prod.mk.injEq] at h
            obtain ⟨h1, h2, h3⟩ := h
            exact ⟨h1.symm, h2.symm, h3.symm⟩
    · simp [parse_id_line, hp] at h

/-- Witness for C2: `"HELLO there"` lacks the `"ID "` prefix, so parsing
yields `none`. -/
theorem c2_parse_identity_witness : parse_id_line ("HELLO there".data) = none :=
  (c2_parse_identity ("HELLO there".data)).1 (by decide)

/-- C3 counterexample: with `boardID = "FW"` (whitespace-free), the
formatted line `ID FW FW v CAPS c` parses to firmware version `"FW"`,
not the formatted `firmwareVersion = "v"` the round-trip claim demands,
because `parts.index("FW")` finds the board id token first. -/
theorem c3_roundtrip_counterexample :
    parse_id_line ("ID ".data ++ "FW".data ++ " FW ".data ++ "v".data
        ++ " CAPS ".data ++ "c".data)
      = some ("FW".data, "FW".data, "c".data)
    ∧ ("FW".data : Str) ≠ ("v".data : Str) := by
  constructor
  · decide
  · decide

/-- C3 (amended): the round-trip holds once the board id is non-empty and
distinct from the literal tokens `"FW"` and `"CAPS"`, and the firmware
version is non-empty and distinct from `"CAPS"` (besides both being
whitespace-free, as claimed).  The recovered capabilities are
`pyJoinSp (pySplit C)`: the tokens of `C`, rejoined with single spaces —
the claimed normalization of whitespace runs. -/
theorem c3_roundtrip (bid fw C : Str)
    (hb : bid ≠ []) (hbs : ∀ c ∈ bid, pyIsSpace c = false)
    (hbfw : bid ≠ "FW".data) (hbcaps : bid ≠ "CAPS".data)
    (hf : fw ≠ []) (hfs : ∀ c ∈ fw, pyIsSpace c = false)
    (hfcaps : fw ≠ "CAPS".data) :
    parse_id_line ("ID ".data ++ bid ++ " FW ".data ++ fw ++ " CAPS ".data ++ C)
      = some (bid, fw, pyJoinSp (pySplit C)) := by
  have hsplit := pySplit_id_format bid fw C hb hbs hf hfs
  have hpre : ("ID ".data).isPrefixOf
      ("ID ".data ++ bid ++ " FW ".data ++ fw ++ " CAPS ".data ++ C) = true := by
    have : "ID ".data ++ bid ++ " FW ".data ++ fw ++ " CAPS ".data ++ C
        = "ID ".data ++ (bid ++ (" FW ".data ++ (fw ++ (" CAPS ".data ++ C)))) := by
      simp [List.append_assoc]
    rw [this, List.isPrefixOf_iff_prefix]
    exact List.prefix_append ..
  have hFW : tokIndex (pySplit ("ID ".data ++ bid ++ " FW ".data ++ fw
      ++ " CAPS ".data ++ C)) ("FW".data) = some 2 := by
    rw [hsplit, tokIndex_cons, if_neg (by decide), tokIndex_cons, if_neg hbfw,
      tokIndex_cons, if_pos rfl]
    rfl
  have hCAPS : tokIndex (pySplit ("ID ".data ++ bid ++ " FW ".data ++ fw
      ++ " CAPS ".data ++ C)) ("CAPS".data) = some 4 := by
    rw [hsplit, tokIndex_cons, if_neg (by decide), tokIndex_cons, if_neg hbcaps,
      tokIndex_cons, if_neg (by decide), tokIndex_cons, if_neg hfcaps,
      tokIndex_cons, if_pos rfl]
    rfl
  simp only [parse_id_line, hpre, if_true, hFW, hCAPS]
  rw [if_neg (by rw [hsplit]; simp)]
  rw [hsplit]
  simp only [List.getD, List.get?_eq_getElem?, List.length_cons]
  cases hC : pySplit C with
  | nil =>
    rw [if_neg (by simp)]
    simp [pyJoinSp_nil]
  | cons w ws =>
    rw [if_pos (by simp)]
    simp

/-- Witness for C3: a concrete round-trip with `boardID = "B1"`,
`firmwareVersion = "1.2"` and capabilities `" wave  row0 "`, whose
whitespace runs collapse to `"wave row0"`. -/
theorem c3_roundtrip_witness :
    parse_id_line ("ID ".data ++ "B1".data ++ " FW ".data ++ "1.2".data
        ++ " CAPS ".data ++ " wave  row0 ".data)
      = some ("B1".data, "1.2".data, "wave row0".data) := by
  have h := c3_roundtrip ("B1".data) ("1.2".data) (" wave  row0 ".data)
    (by decide) (by decide) (by decide) (by decide) (by decide) (by decide) (by decide)
  rw [h]
  decide

theorem charToLower_idem (c : Char) : c.toLower.toLower = c.toLower := by
  show Char.toLower _ = _
  unfold Char.toLower
  by_cases h : c.toNat ≥ 65 ∧ c.toNat ≤ 90
  · rw [if_pos h]
    have hv : Nat.isValidChar (c.toNat + 32) := Or.inl (by omega)
    have hn : (Char.ofNat (c.toNat + 32)).toNat = c.toNat + 32 := by
      unfold Char.ofNat
      rw [dif_pos hv]
      simp [Char.ofNatAux, Char.toNat, UInt32.toNat, BitVec.toNat_ofNatLt]
    rw [if_neg (by omega)]
  · rw [if_neg h, if_neg h]

theorem pyLower_idem (s : Str) : pyLower (pyLower s) = pyLower s := by
  simp [pyLower, charToLower_idem]

/-- C7: the endpoint filter is a pure function of the three metadata
strings (it is a Lean function of exactly those arguments), matches
case-insensitively (lower-casing the inputs first does not change the
result), applies the accept rules first-match-wins, rejects whenever no
accept rule fires (which subsumes the explicit bluetooth/modem reject
rules and the default), and decides the four quoted examples as claimed. -/
theorem c7_endpoint_filter (d h m : Str) :
    ((strContains (pyLower d) ("teensy".data) || strContains (pyLower m) ("teensy".data)
        || strContains (pyLower h) ("teensy".data)) = true → is_usb_serial_port d h m = true)
    ∧ (strContains (pyLower d) ("usb serial device".data) = true →
        is_usb_serial_port d h m = true)
    ∧ ((strContains (pyLower d) ("usb".data)
          && !strContains (pyLower d) ("bluetooth".data)) = true →
        is_usb_serial_port d h m = true)
    ∧ ((strContains (pyLower h) ("usb".data)
          && !strContains (pyLower h) ("bluetooth".data)) = true →
        is_usb_serial_port d h m = true)
    ∧ ((strContains (pyLower d) ("teensy".data) || strContains (pyLower m) ("teensy".data)
          || strContains (pyLower h) ("teensy".data)) = false →
        strContains (pyLower d) ("usb serial device".data) = false →
        (strContains (pyLower d) ("usb".data)
          && !strContains (pyLower d) ("bluetooth".data)) = false →
        (strContains (pyLower h) ("usb".data)
          && !strContains (pyLower h) ("bluetooth".data)) = false →
        is_usb_serial_port d h m = false)
    ∧ is_usb_serial_port d h m = is_usb_serial_port (pyLower d) (pyLower h) (pyLower m)
    ∧ is_usb_serial_port ("USB Serial Device (COM7)".data) [] [] = true
    ∧ is_usb_serial_port ("Standard Serial over Bluetooth link (COM4)".data) [] [] = false
    ∧ is_usb_serial_port [] ("VID_BLUETOOTH".data) [] = false
    ∧ is_usb_serial_port [] [] ("Teensyduino".data) = true := by
  refine ⟨?_, ?_, ?_, ?_, ?_, ?_, by decide, by decide, by decide, by decide⟩
  · intro h1
    simp [is_usb_serial_port, h1]
  · intro h2
    simp only [is_usb_serial_port]
    split_ifs <;> rfl
  · intro h3
    simp only [is_usb_serial_port]
    split_ifs <;> rfl
  · intro h4
    simp only [is_usb_serial_port]
    split_ifs <;> rfl
  · intro h1 h2 h3 h4
    simp [is_usb_serial_port, h1, h2, h3, h4, ite_self]
  · simp only [is_usb_serial_port, pyLower_idem]

/-- Witness for C7: a manufacturer string containing the product token is
accepted via the first rule (applied through the theorem). -/
theorem c7_endpoint_filter_witness :
    is_usb_serial_port [] [] ("PJRC Teensy Board".data) = true :=
  (c7_endpoint_filter [] [] ("PJRC Teensy Board".data)).1 (by decide)

/-- C9: the explicit "Strong rejects" rules of `is_usb_serial_port` are
redundant — deleting them yields an extensionally equal function, because
every deleted branch and the default both return `false`; equivalently the
filter accepts exactly when one of the four accept rules fires. -/
theorem c9_reject_rules_redundant (d h m : Str) :
    is_usb_serial_port d h m = is_usb_serial_port_no_rejects d h m := by
  simp only [is_usb_serial_port, is_usb_serial_port_no_rejects]
  split_ifs <;> rfl

/-! ### Lemmas about discovery de-duplication -/

theorem dedupeBoards_sublist (l : List Board) (seen : List Str) :
    (dedupeBoards l seen).Sublist l := by
  induction l generalizing seen with
  | nil => simp [dedupeBoards]
  | cons b t ih =>
    by_cases hb : b.board_id ∈ seen
    · simp only [dedupeBoards, if_pos hb]
      exact (ih seen).cons b
    · simp only [dedupeBoards, if_neg hb]
      exact (ih _).cons₂ b

theorem dedupeBoards_mem_not_seen {l : List Board} {seen : List Str} {b : Board}
    (hb : b ∈ dedupeBoards l seen) : b.board_id ∉ seen := by
  induction l generalizing seen with
  | nil => simp [dedupeBoards] at hb
  | cons x t ih =>
    by_cases hx : x.board_id ∈ seen
    · rw [show dedupeBoards (x :: t) seen = dedupeBoards t seen from by
        simp [dedupeBoards, hx]] at hb
      exact ih hb
    · rw [show dedupeBoards (x :: t) seen = x :: dedupeBoards t (x.board_id :: seen) from by
        simp [dedupeBoards, hx]] at hb
      rcases List.mem_cons.mp hb with rfl | hb2
      · exact hx
      · have := ih hb2
        exact fun hs => this (List.mem_cons_of_mem _ hs)

theorem dedupeBoards_pairwise (l : List Board) (seen : List Str) :
    (dedupeBoards l seen).Pairwise (fun a b => a.board_id ≠ b.board_id) := by
  induction l generalizing seen with
  | nil => simp [dedupeBoards]
  | cons x t ih =>
    by_cases hx : x.board_id ∈ seen
    · simpa [dedupeBoards, hx] using ih seen
    · simp only [dedupeBoards, if_neg hx]
      refine List.Pairwise.cons (fun b hb => ?_) (ih _)
      have hns := dedupeBoards_mem_not_seen hb
      exact fun he => hns (by rw [← he]; exact List.mem_cons_self ..)

theorem dedupeBoards_mem_iff (l : List Board) (seen : List Str) (b : Board) :
    b ∈ dedupeBoards l seen ↔
      b.board_id ∉ seen
        ∧ ∃ l1 l2, l = l1 ++ b :: l2 ∧ ∀ a ∈ l1, a.board_id ≠ b.board_id := by
  induction l generalizing seen with
  | nil =>
    simp only [dedupeBoards, List.not_mem_nil, false_iff]
    rintro ⟨-, l1, l2, hdec, -⟩
    exact List.not_mem_nil b (hdec ▸ List.mem_append_right l1 (List.mem_cons_self ..))
  | cons x t ih =>
    by_cases hx : x.board_id ∈ seen
    · rw [show dedupeBoards (x :: t) seen = dedupeBoards t seen from by
        simp [dedupeBoards, hx]]
      rw [ih]
      constructor
      · rintro ⟨hseen, l1, l2, rfl, hclean⟩
        refine ⟨hseen, x :: l1, l2, rfl, ?_⟩
        intro a ha
        rcases List.mem_cons.mp ha with rfl | ha2
        · exact fun he => hseen (he ▸ hx)
        · exact hclean a ha2
      · rintro ⟨hseen, l1, l2, hdec, hclean⟩
        cases l1 with
        | nil =>
          simp only [List.nil_append, List.cons.injEq] at hdec
          exact absurd (hdec.1 ▸ hx) hseen
        | cons y l1t =>
          simp only [List.cons_append, List.cons.injEq] at hdec
          exact ⟨hseen, l1t, l2, hdec.2, fun a ha => hclean a (List.mem_cons_of_mem _ ha)⟩
    · rw [show dedupeBoards (x :: t) seen = x :: dedupeBoards t (x.board_id :: seen) from by
        simp [dedupeBoards, hx]]
      constructor
      · intro hb
        rcases List.mem_cons.mp hb with rfl | hb2
        · exact ⟨hx, [], t, rfl, by simp⟩
        · obtain ⟨hseen, l1, l2, rfl, hclean⟩ := (ih _).mp hb2
          have hbx : b.board_id ≠ x.board_id := fun he => hseen (he ▸ List.mem_cons_self ..)
          refine ⟨fun hs => hseen (List.mem_cons_of_mem _ hs), x :: l1, l2, rfl, ?_⟩
          intro a ha
          rcases List.mem_cons.mp ha with rfl | ha2
          · exact fun he => hbx he.symm
          · exact hclean a ha2
      · rintro ⟨hseen, l1, l2, hdec, hclean⟩
        cases l1 with
        | nil =>
          simp only [List.nil_append, List.cons.injEq] at hdec
          rw [hdec.1]
          exact List.mem_cons_self ..
        | cons y l1t =>
          simp only [List.cons_append, List.cons.injEq] at hdec
          obtain ⟨rfl, hdec2⟩ := hdec
          have hbx : b.board_id ≠ x.board_id :=
            fun he => (hclean x (List.mem_cons_self ..)) he.symm
          refine List.mem_cons_of_mem _ ((ih _).mpr ⟨?_, l1t, l2, hdec2, ?_⟩)
          · intro hs
            rcases List.mem_cons.mp hs with he | hs2
            · exact hbx he
            · exact hseen hs2
          · exact fun a ha => hclean a (List.mem_cons_of_mem _ ha)

/-- C4: the discovery result has pairwise-distinct `board_id`s, is an
order-preserving sublist of the pre-deduplication board list, and a board
is in the result exactly when it is the first board carrying its
`board_id` in filtered-endpoint enumeration order. -/
theorem c4_discover_dedup (cands : List (Candidate × ScanBehavior)) :
    (discover_boards cands).Pairwise (fun a b => a.board_id ≠ b.board_id)
    ∧ (discover_boards cands).Sublist (discoverRaw cands)
    ∧ ∀ b, b ∈ discover_boards cands ↔
        ∃ l1 l2, discoverRaw cands = l1 ++ b :: l2
          ∧ ∀ a ∈ l1, a.board_id ≠ b.board_id := by
  refine ⟨dedupeBoards_pairwise _ _, dedupeBoards_sublist _ _, fun b => ?_⟩
  rw [discover_boards, dedupeBoards_mem_iff]
  simp

/-- Witness for C4: two in-scope candidates whose devices both answer with
`board_id = "B1"`; the board from the first candidate (port `E1`,
firmware `1.0`) is in the result, via the theorem's characterization. -/
theorem c4_discover_dedup_witness :
    (⟨"E1".data, "B1".data, "1.0".data, "w".data, "USB Serial Device".data⟩ : Board)
      ∈ discover_boards
        [(⟨"E1".data, "USB Serial Device".data, [], []⟩,
          ⟨.ok, .ok, ["ID B1 FW 1.0 CAPS w".data], []⟩),
         (⟨"E2".data, "USB Serial Device".data, [], []⟩,
          ⟨.ok, .ok, ["ID B1 FW 2.0 CAPS w".data], []⟩)] := by
  refine ((c4_discover_dedup _).2.2 _).mpr
    ⟨[], [⟨"E2".data, "B1".data, "2.0".data, "w".data, "USB Serial Device".data⟩],
      ?_, by simp⟩
  decide

/-- C5: discovery is a total function (it returns the identified board
list for every candidate/transport behaviour — never an exception), a
candidate whose open fails or whose challenge write times out or errors
contributes no board, and removing such a candidate from the enumeration
leaves the discovery result of the other candidates unchanged. -/
theorem c5_discovery_resilience (c : Candidate) (beh : ScanBehavior)
    (hfail : beh.openRes = OpenOutcome.fail ∨ beh.writeRes ≠ WriteOutcome.ok) :
    processCandidate c beh = none
    ∧ ∀ l1 l2, discover_boards (l1 ++ (c, beh) :: l2) = discover_boards (l1 ++ l2) := by
  have hnone : processCandidate c beh = none := by
    rcases hfail with hopen | hwrite
    · cases ho : beh.openRes with
      | fail => simp [processCandidate, ho]
      | ok => rw [ho] at hopen; exact absurd hopen (by simp)
    · cases ho : beh.openRes with
      | fail => simp [processCandidate, ho]
      | ok =>
        cases hw : beh.writeRes with
        | ok => rw [hw] at hwrite; exact absurd rfl hwrite
        | timeout => simp [processCandidate, ho, hw]
        | err => simp [processCandidate, ho, hw]
  refine ⟨hnone, fun l1 l2 => ?_⟩
  rw [discover_boards, discover_boards]
  have hraw : discoverRaw (l1 ++ (c, beh) :: l2) = discoverRaw (l1 ++ l2) := by
    simp only [discoverRaw, List.filter_append, List.filter_cons]
    by_cases hp : is_usb_serial_port c.description c.hwid c.manufacturer
    · simp [hp, List.filterMap_append, List.filterMap_cons, hnone]
    · simp [hp]
  rw [hraw]

/-- Witness for C5: a write-timeout candidate placed between two healthy
candidates yields no board and leaves the others' discovery unchanged. -/
theorem c5_discovery_resilience_witness :
    processCandidate ⟨"E2".data, "USB Serial Device".data, [], []⟩
        ⟨.ok, .timeout, [], []⟩ = none
    ∧ discover_boards
        [(⟨"E1".data, "USB Serial Device".data, [], []⟩,
          ⟨.ok, .ok, ["ID B1 FW 1.0 CAPS w".data], []⟩),
         (⟨"E2".data, "USB Serial Device".data, [], []⟩, ⟨.ok, .timeout, [], []⟩),
         (⟨"E3".data, "USB Serial Device".data, [], []⟩,
          ⟨.ok, .ok, ["ID B3 FW 1.0 CAPS w".data], []⟩)]
      = discover_boards
        [(⟨"E1".data, "USB Serial Device".data, [], []⟩,
          ⟨.ok, .ok, ["ID B1 FW 1.0 CAPS w".data], []⟩),
         (⟨"E3".data, "USB Serial Device".data, [], []⟩,
          ⟨.ok, .ok, ["ID B3 FW 1.0 CAPS w".data], []⟩)] := by
  have h := c5_discovery_resilience ⟨"E2".data, "USB Serial Device".data, [], []⟩
    ⟨.ok, .timeout, [], []⟩ (Or.inr (by decide))
  exact ⟨h.1, h.2
    [(⟨"E1".data, "USB Serial Device".data, [], []⟩,
      ⟨.ok, .ok, ["ID B1 FW 1.0 CAPS w".data], []⟩)]
    [(⟨"E3".data, "USB Serial Device".data, [], []⟩,
      ⟨.ok, .ok, ["ID B3 FW 1.0 CAPS w".data], []⟩)]⟩

/-! ### Lemmas about the broadcast open-transport table -/

/-- Keys of the `sers` dict, in insertion order. -/
def tblKeys (tbl : List (Str × Handle)) : List Str := tbl.map Prod.fst

/-- The indices (in input-list order) of the boards whose `open_port`
succeeded, counting from `i`. -/
def openedIdx : Nat → List (Board × BcastBehavior) → List Nat
  | _, [] => []
  | i, (_, beh) :: rest =>
    match beh.openRes with
    | .ok => i :: openedIdx (i + 1) rest
    | .fail => openedIdx (i + 1) rest

/-- The table entries the open loop produces when no `board_id` repeats
among the boards: one entry per successful open, in order. -/
def openEntries : Nat → List (Board × BcastBehavior) → List (Str × Handle)
  | _, [] => []
  | i, (b, beh) :: rest =>
    match beh.openRes with
    | .ok => (b.board_id, mkHandle i b beh) :: openEntries (i + 1) rest
    | .fail => openEntries (i + 1) rest

/-- The handle opened for the last board (in list order, numbered from
`i`) whose open succeeded and whose id is `bid` — the survivor of the
dict-assignment displacement. -/
def lastOpenHandle : Nat → List (Board × BcastBehavior) → Str → Option Handle
  | _, [], _ => none
  | i, (b, beh) :: rest, bid =>
    match lastOpenHandle (i + 1) rest bid with
    | some h => some h
    | none =>
      if beh.openRes = OpenOutcome.ok ∧ b.board_id = bid
      then some (mkHandle i b beh) else none

theorem listLookup_eq_none (tbl : List (Str × Handle)) (bid : Str) :
    listLookup tbl bid = none ↔ bid ∉ tblKeys tbl := by
  induction tbl with
  | nil => simp [listLookup, tblKeys]
  | cons e rest ih =>
    obtain ⟨k, v⟩ := e
    by_cases hk : k = bid
    · subst hk
      simp [listLookup, tblKeys]
    · simp only [listLookup, if_neg hk, tblKeys, List.map_cons, List.mem_cons]
      rw [ih]
      constructor
      · intro hmem h2
        rcases h2 with he | hm
        · exact hk he.symm
        · exact hmem hm
      · intro hn hm
        exact hn (Or.inr hm)

theorem updateTable_eq_append {tbl : List (Str × Handle)} {k : Str} (v : Handle)
    (h : k ∉ tblKeys tbl) : updateTable tbl k v = tbl ++ [(k, v)] := by
  induction tbl with
  | nil => rfl
  | cons e rest ih =>
    obtain ⟨k0, v0⟩ := e
    have hk0 : k0 ≠ k := by
      intro he
      exact h (by simp [tblKeys, he])
    have hrest : k ∉ tblKeys rest := fun hm => h (by simp [tblKeys] at hm ⊢; exact Or.inr hm)
    simp [updateTable, hk0, ih hrest]

theorem tblKeys_updateTable_mem {tbl : List (Str × Handle)} {k : Str} (v : Handle)
    (h : k ∈ tblKeys tbl) : tblKeys (updateTable tbl k v) = tblKeys tbl := by
  induction tbl with
  | nil => simp [tblKeys] at h
  | cons e rest ih =>
    obtain ⟨k0, v0⟩ := e
    by_cases hk0 : k0 = k
    · subst hk0
      simp [updateTable, tblKeys]
    · have hrest : k ∈ tblKeys rest := by
        rcases List.mem_cons.mp h with he | hm
        · exact absurd he.symm hk0
        · exact hm
      rw [show updateTable ((k0, v0) :: rest) k v = (k0, v0) :: updateTable rest k v from by
        simp [updateTable, hk0]]
      show k0 :: tblKeys (updateTable rest k v) = k0 :: tblKeys rest
      rw [ih hrest]

theorem tblKeys_updateTable_nodup {tbl : List (Str × Handle)} (k : Str) (v : Handle)
    (h : (tblKeys tbl).Nodup) : (tblKeys (updateTable tbl k v)).Nodup := by
  by_cases hk : k ∈ tblKeys tbl
  · rwa [tblKeys_updateTable_mem v hk]
  · rw [updateTable_eq_append v hk]
    have : tblKeys (tbl ++ [(k, v)]) = tblKeys tbl ++ [k] := by simp [tblKeys]
    rw [this]
    simp only [List.nodup_append, List.nodup_cons, List.not_mem_nil, not_false_iff,
      List.nodup_nil, and_true, true_and]
    constructor
    · exact h
    · intro a ha
      simp only [List.mem_singleton]
      exact fun he => hk (he ▸ ha)

theorem listLookup_updateTable_self (tbl : List (Str × Handle)) (k : Str) (v : Handle) :
    listLookup (updateTable tbl k v) k = some v := by
  induction tbl with
  | nil => simp [updateTable, listLookup]
  | cons e rest ih =>
    obtain ⟨k0, v0⟩ := e
    by_cases hk0 : k0 = k
    · subst hk0
      simp [updateTable, listLookup]
    · simp [updateTable, hk0, listLookup, ih]

theorem listLookup_updateTable_ne (tbl : List (Str × Handle)) {k k' : Str} (v : Handle)
    (h : k' ≠ k) : listLookup (updateTable tbl k v) k' = listLookup tbl k' := by
  have hne : k ≠ k' := fun he => h he.symm
  induction tbl with
  | nil =>
    show listLookup [(k, v)] k' = none
    simp [listLookup, hne]
  | cons e rest ih =>
    obtain ⟨k0, v0⟩ := e
    by_cases hk0 : k0 = k
    · subst hk0
      simp only [updateTable, if_pos rfl]
      show (if k0 = k' then some v else listLookup rest k') = _
      rw [if_neg hne]
      show _ = (if k0 = k' then some v0 else listLookup rest k')
      rw [if_neg hne]
    · simp [updateTable, hk0, listLookup, ih]

theorem bcOpenGo_openWarnings (l : List (Board × BcastBehavior)) :
    ∀ i tbl, (bcOpenGo i tbl l).openWarnings
      = l.filterMap (fun e => match e.2.openRes with
          | .fail => some (e.1.board_id, e.1.port)
          | .ok => none) := by
  induction l with
  | nil => intro i tbl; rfl
  | cons e rest ih =>
    intro i tbl
    obtain ⟨b, beh⟩ := e
    cases ho : beh.openRes with
    | ok => simp [bcOpenGo, ho, ih, List.filterMap_cons]
    | fail => simp [bcOpenGo, ho, ih, List.filterMap_cons]

theorem bcOpenGo_opened (l : List (Board × BcastBehavior)) :
    ∀ i tbl, (bcOpenGo i tbl l).opened = openedIdx i l := by
  induction l with
  | nil => intro i tbl; rfl
  | cons e rest ih =>
    intro i tbl
    obtain ⟨b, beh⟩ := e
    cases ho : beh.openRes with
    | ok => simp [bcOpenGo, ho, ih, openedIdx]
    | fail => simp [bcOpenGo, ho, ih, openedIdx]

theorem bcOpenGo_keys_nodup (l : List (Board × BcastBehavior)) :
    ∀ i tbl, (tblKeys tbl).Nodup → (tblKeys (bcOpenGo i tbl l).tbl).Nodup := by
  induction l with
  | nil => intro i tbl h; exact h
  | cons e rest ih =>
    intro i tbl h
    obtain ⟨b, beh⟩ := e
    cases ho : beh.openRes with
    | ok =>
      simp only [bcOpenGo, ho]
      exact ih (i + 1) _ (tblKeys_updateTable_nodup _ _ h)
    | fail =>
      simp only [bcOpenGo, ho]
      exact ih (i + 1) tbl h

theorem bcOpenGo_lookup_none (l : List (Board × BcastBehavior)) :
    ∀ i tbl bid, lastOpenHandle i l bid = none →
      listLookup (bcOpenGo i tbl l).tbl bid = listLookup tbl bid := by
  induction l with
  | nil => intro i tbl bid _; rfl
  | cons e rest ih =>
    intro i tbl bid hnone
    obtain ⟨b, beh⟩ := e
    cases hrest : lastOpenHandle (i + 1) rest bid with
    | some h2 =>
      rw [show lastOpenHandle i ((b, beh) :: rest) bid = some h2 from by
        simp [lastOpenHandle, hrest]] at hnone
      exact absurd hnone (by simp)
    | none =>
      rw [show lastOpenHandle i ((b, beh) :: rest) bid
          = if beh.openRes = OpenOutcome.ok ∧ b.board_id = bid
            then some (mkHandle i b beh) else none from by
        simp [lastOpenHandle, hrest]] at hnone
      cases ho : beh.openRes with
      | ok =>
        have hne : b.board_id ≠ bid := by
          intro he
          rw [if_pos ⟨ho, he⟩] at hnone
          exact absurd hnone (by simp)
        simp only [bcOpenGo, ho]
        rw [ih (i + 1) _ bid hrest]
        exact listLookup_updateTable_ne tbl _ (fun he => hne he.symm)
      | fail =>
        simp only [bcOpenGo, ho]
        exact ih (i + 1) tbl bid hrest

theorem bcOpenGo_lookup_some (l : List (Board × BcastBehavior)) :
    ∀ i tbl bid h, lastOpenHandle i l bid = some h →
      listLookup (bcOpenGo i tbl l).tbl bid = some h := by
  induction l with
  | nil => intro i tbl bid h hsome; exact absurd hsome (by simp [lastOpenHandle])
  | cons e rest ih =>
    intro i tbl bid h hsome
    obtain ⟨b, beh⟩ := e
    cases hrest : lastOpenHandle (i + 1) rest bid with
    | some h2 =>
      rw [show lastOpenHandle i ((b, beh) :: rest) bid = some h2 from by
        simp [lastOpenHandle, hrest]] at hsome
      obtain rfl : h2 = h := Option.some.inj hsome
      cases ho : beh.openRes with
      | ok =>
        simp only [bcOpenGo, ho]
        exact ih (i + 1) _ bid h2 hrest
      | fail =>
        simp only [bcOpenGo, ho]
        exact ih (i + 1) tbl bid h2 hrest
    | none =>
      rw [show lastOpenHandle i ((b, beh) :: rest) bid
          = if beh.openRes = OpenOutcome.ok ∧ b.board_id = bid
            then some (mkHandle i b beh) else none from by
        simp [lastOpenHandle, hrest]] at hsome
      by_cases hc : beh.openRes = OpenOutcome.ok ∧ b.board_id = bid
      · rw [if_pos hc] at hsome
        obtain rfl : mkHandle i b beh = h := Option.some.inj hsome
        simp only [bcOpenGo, hc.1]
        rw [bcOpenGo_lookup_none rest (i + 1) _ bid hrest]
        rw [← hc.2]
        exact listLookup_updateTable_self tbl b.board_id (mkHandle i b beh)
      · rw [if_neg hc] at hsome
        exact absurd hsome (by simp)

theorem openEntries_map_idx (l : List (Board × BcastBehavior)) :
    ∀ i, (openEntries i l).map (fun e => e.2.idx) = openedIdx i l := by
  induction l with
  | nil => intro i; rfl
  | cons e rest ih =>
    intro i
    obtain ⟨b, beh⟩ := e
    cases ho : beh.openRes with
    | ok => simp [openEntries, openedIdx, ho, mkHandle, ih]
    | fail => simp [openEntries, openedIdx, ho, ih]

theorem tblKeys_openEntries_mem (l : List (Board × BcastBehavior)) :
    ∀ i bid, bid ∈ tblKeys (openEntries i l) →
      ∃ e ∈ l, e.2.openRes = OpenOutcome.ok ∧ e.1.board_id = bid := by
  induction l with
  | nil => intro i bid hm; simp [openEntries, tblKeys] at hm
  | cons e rest ih =>
    intro i bid hm
    obtain ⟨b, beh⟩ := e
    cases ho : beh.openRes with
    | ok =>
      rw [show openEntries i ((b, beh) :: rest)
          = (b.board_id, mkHandle i b beh) :: openEntries (i + 1) rest from by
        simp [openEntries, ho]] at hm
      rcases List.mem_cons.mp hm with he | hm2
      · exact ⟨(b, beh), List.mem_cons_self .., ho, by simp at he; exact he.symm⟩
      · obtain ⟨e2, he2, hok2, hid2⟩ := ih (i + 1) bid hm2
        exact ⟨e2, List.mem_cons_of_mem _ he2, hok2, hid2⟩
    | fail =>
      rw [show openEntries i ((b, beh) :: rest) = openEntries (i + 1) rest from by
        simp [openEntries, ho]] at hm
      obtain ⟨e2, he2, hok2, hid2⟩ := ih (i + 1) bid hm
      exact ⟨e2, List.mem_cons_of_mem _ he2, hok2, hid2⟩

theorem bcOpenGo_tbl_distinct (l : List (Board × BcastBehavior)) :
    ∀ i tbl, (l.map (fun e => e.1.board_id)).Nodup →
      (∀ e ∈ l, e.1.board_id ∉ tblKeys tbl) →
      (bcOpenGo i tbl l).tbl = tbl ++ openEntries i l := by
  induction l with
  | nil => intro i tbl _ _; simp [bcOpenGo, openEntries]
  | cons e rest ih =>
    intro i tbl hnd hdisj
    obtain ⟨b, beh⟩ := e
    simp only [List.map_cons] at hnd
    have hnd2 := List.nodup_cons.mp hnd
    have hndr : (rest.map (fun e => e.1.board_id)).Nodup := hnd2.2
    have hbid : b.board_id ∉ rest.map (fun e => e.1.board_id) := hnd2.1
    cases ho : beh.openRes with
    | ok =>
      have hnotin : b.board_id ∉ tblKeys tbl := hdisj (b, beh) (List.mem_cons_self ..)
      have hdisj2 : ∀ e ∈ rest, e.1.board_id ∉ tblKeys (tbl ++ [(b.board_id, mkHandle i b beh)]) := by
        intro e2 he2 hmem
        have hkeys : tblKeys (tbl ++ [(b.board_id, mkHandle i b beh)])
            = tblKeys tbl ++ [b.board_id] := by simp [tblKeys]
        rw [hkeys] at hmem
        rcases List.mem_append.mp hmem with hm1 | hm2
        · exact hdisj e2 (List.mem_cons_of_mem _ he2) hm1
        · have he : e2.1.board_id = b.board_id := by simpa using hm2
          exact hbid (he ▸ List.mem_map_of_mem (fun e => e.1.board_id) he2)
      simp only [bcOpenGo, ho]
      rw [updateTable_eq_append _ hnotin, ih (i + 1) _ hndr hdisj2]
      rw [show openEntries i ((b, beh) :: rest)
          = (b.board_id, mkHandle i b beh) :: openEntries (i + 1) rest from by
        simp [openEntries, ho]]
      simp
    | fail =>
      simp only [bcOpenGo, ho]
      rw [ih (i + 1) tbl hndr (fun e2 he2 => hdisj e2 (List.mem_cons_of_mem _ he2))]
      rw [show openEntries i ((b, beh) :: rest) = openEntries (i + 1) rest from by
        simp [openEntries, ho]]

theorem lastOpenHandle_sound (l : List (Board × BcastBehavior)) :
    ∀ i bid h, lastOpenHandle i l bid = some h →
      ∃ j, ∃ hj : j < l.length,
        (l.get ⟨j, hj⟩).2.openRes = OpenOutcome.ok
        ∧ (l.get ⟨j, hj⟩).1.board_id = bid
        ∧ h = mkHandle (i + j) (l.get ⟨j, hj⟩).1 (l.get ⟨j, hj⟩).2 := by
  induction l with
  | nil => intro i bid h hsome; exact absurd hsome (by simp [lastOpenHandle])
  | cons e rest ih =>
    intro i bid h hsome
    obtain ⟨b, beh⟩ := e
    cases hrest : lastOpenHandle (i + 1) rest bid with
    | some h2 =>
      rw [show lastOpenHandle i ((b, beh) :: rest) bid = some h2 from by
        simp [lastOpenHandle, hrest]] at hsome
      obtain rfl : h2 = h := Option.some.inj hsome
      obtain ⟨j, hj, hok, hid, hmk⟩ := ih (i + 1) bid h2 hrest
      refine ⟨j + 1, by simpa using hj, by simpa using hok, by simpa using hid, ?_⟩
      rw [hmk]
      have harith : i + 1 + j = i + (j + 1) := by omega
      simp [harith]
    | none =>
      rw [show lastOpenHandle i ((b, beh) :: rest) bid
          = if beh.openRes = OpenOutcome.ok ∧ b.board_id = bid
            then some (mkHandle i b beh) else none from by
        simp [lastOpenHandle, hrest]] at hsome
      by_cases hc : beh.openRes = OpenOutcome.ok ∧ b.board_id = bid
      · rw [if_pos hc] at hsome
        obtain rfl : mkHandle i b beh = h := Option.some.inj hsome
        exact ⟨0, by simp, by simpa using hc.1, by simpa using hc.2, by simp [mkHandle]⟩
      · rw [if_neg hc] at hsome
        exact absurd hsome (by simp)

theorem lastOpenHandle_mono (l : List (Board × BcastBehavior)) :
    ∀ i bid j (hj : j < l.length),
      (l.get ⟨j, hj⟩).2.openRes = OpenOutcome.ok →
      (l.get ⟨j, hj⟩).1.board_id = bid →
      ∃ h, lastOpenHandle i l bid = some h ∧ i + j ≤ h.idx := by
  induction l with
  | nil => intro i bid j hj; exact absurd hj (by simp)
  | cons e rest ih =>
    intro i bid j hj hok hid
    obtain ⟨b, beh⟩ := e
    cases j with
    | zero =>
      cases hrest : lastOpenHandle (i + 1) rest bid with
      | some h2 =>
        obtain ⟨j2, hj2, _, _, hmk⟩ := lastOpenHandle_sound rest (i + 1) bid h2 hrest
        refine ⟨h2, by simp [lastOpenHandle, hrest], ?_⟩
        rw [hmk]
        simp only [mkHandle]
        omega
      | none =>
        have hc : beh.openRes = OpenOutcome.ok ∧ b.board_id = bid :=
          ⟨by simpa using hok, by simpa using hid⟩
        refine ⟨mkHandle i b beh, ?_, by simp [mkHandle]⟩
        simp [lastOpenHandle, hrest, hc]
    | succ j0 =>
      obtain ⟨h2, hsome, hge⟩ := ih (i + 1) bid j0 (by simpa using hj)
        (by simpa using hok) (by simpa using hid)
      refine ⟨h2, by simp [lastOpenHandle, hsome], by omega⟩

/-- Shape of one `broadcast_command` result: all observable effects are
determined by the open phase (this also covers the `if not sers` early
return, where the table and all per-entry effect lists are empty). -/
theorem broadcast_command_fields (boards : List (Board × BcastBehavior)) (cmd : Str) :
    (broadcast_command boards cmd).openWarnings = (bcOpenPhase boards).openWarnings
    ∧ (broadcast_command boards cmd).opened = (bcOpenPhase boards).opened
    ∧ (broadcast_command boards cmd).writes
        = (bcOpenPhase boards).tbl.map (fun e => (e.2.idx, pyStrip cmd ++ ['\n']))
    ∧ (broadcast_command boards cmd).closed
        = (bcOpenPhase boards).tbl.map (fun e => e.2.idx)
    ∧ (broadcast_command boards cmd).traces
        = (bcOpenPhase boards).tbl.filterMap (fun e =>
            if read_lines_for e.2.rawAck = [] then none
            else some (e.1, lastN 8 (read_lines_for e.2.rawAck))) := by
  by_cases htbl : (bcOpenPhase boards).tbl = []
  · simp [broadcast_command, htbl]
  · simp [broadcast_command, htbl]

theorem listLookup_of_mem {tbl : List (Str × Handle)} {k : Str} {v : Handle}
    (hnd : (tblKeys tbl).Nodup) (hm : (k, v) ∈ tbl) : listLookup tbl k = some v := by
  induction tbl with
  | nil => simp at hm
  | cons e rest ih =>
    obtain ⟨k0, v0⟩ := e
    have hnd2 := List.nodup_cons.mp (show (k0 :: tblKeys rest).Nodup from hnd)
    rcases List.mem_cons.mp hm with he | hm2
    · obtain ⟨rfl, rfl⟩ := Prod.mk.injEq .. ▸ he
      simp [listLookup]
    · by_cases hk : k0 = k
      · subst hk
        exact absurd (List.mem_map_of_mem Prod.fst hm2) hnd2.1
      · simp only [listLookup, if_neg hk]
        exact ih hnd2.2 hm2

/-- C1 counterexample: the coordinator strips the command before framing
(`cmd.strip() + "\n"`), so a command with leading whitespace is NOT
transmitted unmodified: broadcasting `" sync stop 200"` to one opened
board writes `sync stop 200\n`, not `" sync stop 200" + "\n"`. -/
theorem c1_broadcast_payload_counterexample :
    (broadcast_command
        [(⟨"COM7".data, "B9".data, "1.0".data, "w".data, "d".data⟩,
          ⟨OpenOutcome.ok, WriteOutcome.ok, []⟩)]
        (" sync stop 200".data)).writes
      = [(0, "sync stop 200\n".data)]
    ∧ "sync stop 200\n".data ≠ " sync stop 200".data ++ ['\n'] := by
  constructor
  · decide
  · decide

/-- C1 (amended): for every command and board list with pairwise-distinct
board ids (the invariant of every discovery result), the broadcast makes
exactly one write per successfully opened transport, in open order, each
with exactly the bytes of the command stripped of leading/trailing
whitespace followed by one newline; `"sync stop 200"` has no surrounding
whitespace, so its payload is exactly `sync stop 200\n`. -/
theorem c1_broadcast_frames_command (boards : List (Board × BcastBehavior)) (cmd : Str)
    (hids : (boards.map (fun e => e.1.board_id)).Nodup) :
    (broadcast_command boards cmd).writes
      = (openedIdx 0 boards).map (fun i => (i, pyStrip cmd ++ ['\n']))
    ∧ pyStrip ("sync stop 200".data) = "sync stop 200".data := by
  refine ⟨?_, by decide⟩
  rw [(broadcast_command_fields boards cmd).2.2.1]
  have htbl : (bcOpenPhase boards).tbl = openEntries 0 boards := by
    have h := bcOpenGo_tbl_distinct boards 0 [] hids (by intro e he; simp [tblKeys])
    simpa [bcOpenPhase] using h
  rw [htbl, ← openEntries_map_idx boards 0, List.map_map]
  rfl

/-- Witness for C1: one board, open succeeding; the single write carries
exactly `sync stop 200\n`. -/
theorem c1_broadcast_frames_command_witness :
    (broadcast_command
        [(⟨"E1".data, "B1".data, "1.2".data, "w".data, "d".data⟩,
          ⟨OpenOutcome.ok, WriteOutcome.ok, []⟩)]
        ("sync stop 200".data)).writes
      = [(0, "sync stop 200\n".data)] := by
  have h := c1_broadcast_frames_command
    [(⟨"E1".data, "B1".data, "1.2".data, "w".data, "d".data⟩,
      ⟨OpenOutcome.ok, WriteOutcome.ok, []⟩)]
    ("sync stop 200".data) (by decide)
  rw [h.1]
  decide

/-- C6 counterexample: the claim quantifies over every board list, but
with two boards sharing a `board_id` whose opens both succeed, the dict
keyed by `board_id` displaces the first handle, so the command is written
only to the second transport although both transports did open. -/
theorem c6_broadcast_open_counterexample :
    (broadcast_command
        [(⟨"P1".data, "BX".data, "1.0".data, "w".data, "d".data⟩,
          ⟨OpenOutcome.ok, WriteOutcome.ok, []⟩),
         (⟨"P2".data, "BX".data, "1.0".data, "w".data, "d".data⟩,
          ⟨OpenOutcome.ok, WriteOutcome.ok, []⟩)]
        ("go".data)).opened = [0, 1]
    ∧ (broadcast_command
        [(⟨"P1".data, "BX".data, "1.0".data, "w".data, "d".data⟩,
          ⟨OpenOutcome.ok, WriteOutcome.ok, []⟩),
         (⟨"P2".data, "BX".data, "1.0".data, "w".data, "d".data⟩,
          ⟨OpenOutcome.ok, WriteOutcome.ok, []⟩)]
        ("go".data)).writes = [(1, "go\n".data)] := by
  constructor
  · decide
  · decide

/-- C6 (amended): with pairwise-distinct board ids (the invariant of
every discovery result), a board whose transport fails to open yields
exactly one warning naming it, contributes no write and no trace entry,
and the framed command is still written — exactly once, in order — to
every board whose transport did open; trace entries only ever name boards
whose open succeeded. -/
theorem c6_broadcast_partial_failure (boards : List (Board × BcastBehavior)) (cmd : Str)
    (hids : (boards.map (fun e => e.1.board_id)).Nodup) :
    (broadcast_command boards cmd).openWarnings
      = boards.filterMap (fun e => match e.2.openRes with
          | .fail => some (e.1.board_id, e.1.port)
          | .ok => none)
    ∧ (broadcast_command boards cmd).writes
      = (openedIdx 0 boards).map (fun i => (i, pyStrip cmd ++ ['\n']))
    ∧ ∀ bid ls, (bid, ls) ∈ (broadcast_command boards cmd).traces →
        ∃ e ∈ boards, e.2.openRes = OpenOutcome.ok ∧ e.1.board_id = bid := by
  have hfields := broadcast_command_fields boards cmd
  have htbl : (bcOpenPhase boards).tbl = openEntries 0 boards := by
    have h := bcOpenGo_tbl_distinct boards 0 [] hids (by intro e he; simp [tblKeys])
    simpa [bcOpenPhase] using h
  refine ⟨?_, ?_, ?_⟩
  · rw [hfields.1]
    have h := bcOpenGo_openWarnings boards 0 []
    simpa [bcOpenPhase] using h
  · rw [hfields.2.2.1, htbl, ← openEntries_map_idx boards 0, List.map_map]
    rfl
  · intro bid ls hmem
    rw [hfields.2.2.2.2, htbl] at hmem
    obtain ⟨e, he, hfe⟩ := List.mem_filterMap.mp hmem
    have hbid : e.1 = bid := by
      by_cases hl : read_lines_for e.2.rawAck = []
      · rw [if_pos hl] at hfe
        exact absurd hfe (by simp)
      · rw [if_neg hl] at hfe
        exact (Prod.mk.injEq .. ▸ Option.some.inj hfe).1
    exact tblKeys_openEntries_mem boards 0 bid
      (hbid ▸ List.mem_map_of_mem Prod.fst he)

/-- Witness for C6: boards `B1`, `B2`, `B3` where only `B2` fails to
open — one warning for `B2`, and the framed command written to the
transports of `B1` (index 0) and `B3` (index 2). -/
theorem c6_broadcast_partial_failure_witness :
    (broadcast_command
        [(⟨"P1".data, "B1".data, "1.0".data, "w".data, "d".data⟩,
          ⟨OpenOutcome.ok, WriteOutcome.ok, []⟩),
         (⟨"P2".data, "B2".data, "1.0".data, "w".data, "d".data⟩,
          ⟨OpenOutcome.fail, WriteOutcome.ok, []⟩),
         (⟨"P3".data, "B3".data, "1.0".data, "w".data, "d".data⟩,
          ⟨OpenOutcome.ok, WriteOutcome.ok, []⟩)]
        ("sync stop 200".data)).openWarnings = [("B2".data, "P2".data)]
    ∧ (broadcast_command
        [(⟨"P1".data, "B1".data, "1.0".data, "w".data, "d".data⟩,
          ⟨OpenOutcome.ok, WriteOutcome.ok, []⟩),
         (⟨"P2".data, "B2".data, "1.0".data, "w".data, "d".data⟩,
          ⟨OpenOutcome.fail, WriteOutcome.ok, []⟩),
         (⟨"P3".data, "B3".data, "1.0".data, "w".data, "d".data⟩,
          ⟨OpenOutcome.ok, WriteOutcome.ok, []⟩)]
        ("sync stop 200".data)).writes
      = [(0, "sync stop 200\n".data), (2, "sync stop 200\n".data)] := by
  have h := c6_broadcast_partial_failure
    [(⟨"P1".data, "B1".data, "1.0".data, "w".data, "d".data⟩,
      ⟨OpenOutcome.ok, WriteOutcome.ok, []⟩),
     (⟨"P2".data, "B2".data, "1.0".data, "w".data, "d".data⟩,
      ⟨OpenOutcome.fail, WriteOutcome.ok, []⟩),
     (⟨"P3".data, "B3".data, "1.0".data, "w".data, "d".data⟩,
      ⟨OpenOutcome.ok, WriteOutcome.ok, []⟩)]
    ("sync stop 200".data) (by decide)
  refine ⟨?_, ?_⟩
  · rw [h.1]
    decide
  · rw [h.2.1]
    decide

/-- C8 counterexample: broadcast's `finally` closes only the handles still
in the dict; with two boards sharing a `board_id` whose opens both
succeed, the handle opened first (index 0) is displaced from the dict and
is never closed, although it was successfully opened. -/
theorem c8_close_counterexample :
    (broadcast_command
        [(⟨"Q1".data, "BY".data, "1.0".data, "w".data, "d".data⟩,
          ⟨OpenOutcome.ok, WriteOutcome.ok, []⟩),
         (⟨"Q2".data, "BY".data, "1.0".data, "w".data, "d".data⟩,
          ⟨OpenOutcome.ok, WriteOutcome.ok, []⟩)]
        ("stop".data)).opened = [0, 1]
    ∧ (broadcast_command
        [(⟨"Q1".data, "BY".data, "1.0".data, "w".data, "d".data⟩,
          ⟨OpenOutcome.ok, WriteOutcome.ok, []⟩),
         (⟨"Q2".data, "BY".data, "1.0".data, "w".data, "d".data⟩,
          ⟨OpenOutcome.ok, WriteOutcome.ok, []⟩)]
        ("stop".data)).closed = [1] := by
  constructor
  · decide
  · decide

/-- C8 (amended): discovery's per-candidate `try/finally` closes the
transport on every control path on which it was opened (close failures
are swallowed, so closing is modelled as always completing); broadcast's
`finally` closes exactly the handles retained in its table, which — when
the board ids are pairwise distinct, as in every discovery result — are
exactly the transports it opened. -/
theorem c8_transports_closed (beh : ScanBehavior)
    (boards : List (Board × BcastBehavior)) (cmd : Str)
    (hids : (boards.map (fun e => e.1.board_id)).Nodup) :
    scanCloses beh = scanOpens beh
    ∧ (broadcast_command boards cmd).closed = (broadcast_command boards cmd).opened := by
  constructor
  · obtain ⟨o, w, r1, r2⟩ := beh
    cases o <;> cases w <;> rfl
  · have hfields := broadcast_command_fields boards cmd
    have htbl : (bcOpenPhase boards).tbl = openEntries 0 boards := by
      have h := bcOpenGo_tbl_distinct boards 0 [] hids (by intro e he; simp [tblKeys])
      simpa [bcOpenPhase] using h
    rw [hfields.2.2.2.1, hfields.2.1, htbl, openEntries_map_idx boards 0]
    have h := bcOpenGo_opened boards 0 []
    simpa [bcOpenPhase] using h.symm

/-- Witness for C8: a concrete write-timeout scan behaviour still closes
its transport, and a concrete two-board broadcast (one open failing)
closes exactly what it opened. -/
theorem c8_transports_closed_witness :
    scanCloses ⟨OpenOutcome.ok, WriteOutcome.timeout, [], []⟩
      = scanOpens ⟨OpenOutcome.ok, WriteOutcome.timeout, [], []⟩
    ∧ (broadcast_command
        [(⟨"P1".data, "B1".data, "1.0".data, "w".data, "d".data⟩,
          ⟨OpenOutcome.fail, WriteOutcome.ok, []⟩),
         (⟨"P2".data, "B2".data, "1.0".data, "w".data, "d".data⟩,
          ⟨OpenOutcome.ok, WriteOutcome.timeout, []⟩)]
        ("stop".data)).closed
      = (broadcast_command
        [(⟨"P1".data, "B1".data, "1.0".data, "w".data, "d".data⟩,
          ⟨OpenOutcome.fail, WriteOutcome.ok, []⟩),
         (⟨"P2".data, "B2".data, "1.0".data, "w".data, "d".data⟩,
          ⟨OpenOutcome.ok, WriteOutcome.timeout, []⟩)]
        ("stop".data)).opened := by
  have h := c8_transports_closed ⟨OpenOutcome.ok, WriteOutcome.timeout, [], []⟩
    [(⟨"P1".data, "B1".data, "1.0".data, "w".data, "d".data⟩,
      ⟨OpenOutcome.fail, WriteOutcome.ok, []⟩),
     (⟨"P2".data, "B2".data, "1.0".data, "w".data, "d".data⟩,
      ⟨OpenOutcome.ok, WriteOutcome.timeout, []⟩)]
    ("stop".data) (by decide)
  exact h

/-- C10: the broadcast keys its open-transport table by `board_id`: the
table keys are pairwise distinct, so the framed command is written to at
most one transport per distinct board id; the handle stored under an id
is the one opened for the last board in list order with that id whose
open succeeded; the payload is written once per retained handle, every
retained handle is read for its trace and closed; and a transport opened
for an earlier board with a duplicated id is displaced: its index is
neither closed nor written to. -/
theorem c10_table_keyed_by_board_id (boards : List (Board × BcastBehavior)) (cmd : Str) :
    (tblKeys (bcOpenPhase boards).tbl).Nodup
    ∧ (∀ bid, listLookup (bcOpenPhase boards).tbl bid = lastOpenHandle 0 boards bid)
    ∧ (broadcast_command boards cmd).writes
        = (bcOpenPhase boards).tbl.map (fun e => (e.2.idx, pyStrip cmd ++ ['\n']))
    ∧ (broadcast_command boards cmd).closed
        = (bcOpenPhase boards).tbl.map (fun e => e.2.idx)
    ∧ (broadcast_command boards cmd).traces
        = (bcOpenPhase boards).tbl.filterMap (fun e =>
            if read_lines_for e.2.rawAck = [] then none
            else some (e.1, lastN 8 (read_lines_for e.2.rawAck)))
    ∧ ∀ i j (hi : i < boards.length) (hj : j < boards.length), i < j →
        (boards.get ⟨i, hi⟩).2.openRes = OpenOutcome.ok →
        (boards.get ⟨j, hj⟩).2.openRes = OpenOutcome.ok →
        (boards.get ⟨i, hi⟩).1.board_id = (boards.get ⟨j, hj⟩).1.board_id →
        i ∉ (broadcast_command boards cmd).closed
          ∧ i ∉ (broadcast_command boards cmd).writes.map Prod.fst := by
  have hfields := broadcast_command_fields boards cmd
  have hnodup : (tblKeys (bcOpenPhase boards).tbl).Nodup := by
    have h := bcOpenGo_keys_nodup boards 0 [] (by simp [tblKeys])
    simpa [bcOpenPhase] using h
  have hlookup : ∀ bid, listLookup (bcOpenPhase boards).tbl bid
      = lastOpenHandle 0 boards bid := by
    intro bid
    cases hl : lastOpenHandle 0 boards bid with
    | some h =>
      have h2 := bcOpenGo_lookup_some boards 0 [] bid h hl
      simpa [bcOpenPhase] using h2
    | none =>
      have h2 := bcOpenGo_lookup_none boards 0 [] bid hl
      simpa [bcOpenPhase, listLookup] using h2
  refine ⟨hnodup, hlookup, hfields.2.2.1, hfields.2.2.2.1, hfields.2.2.2.2, ?_⟩
  intro i j hi hj hij hoki hokj heq
  have hcore : i ∉ (bcOpenPhase boards).tbl.map (fun e => e.2.idx) := by
    intro hmem
    obtain ⟨e, hment, hidx⟩ := List.mem_map.mp hmem
    obtain ⟨bid, h⟩ := e
    have hlk : listLookup (bcOpenPhase boards).tbl bid = some h :=
      listLookup_of_mem hnodup hment
    rw [hlookup bid] at hlk
    obtain ⟨j0, hj0, hok0, hid0, hmk0⟩ := lastOpenHandle_sound boards 0 bid h hlk
    have hidxi : h.idx = i := hidx
    have hidx0 : h.idx = j0 := by rw [hmk0]; simp [mkHandle]
    have hji : j0 = i := by omega
    subst hji
    have hjid : (boards.get ⟨j, hj⟩).1.board_id = bid := by
      rw [← heq]
      exact hid0
    obtain ⟨h2, hsome2, hge2⟩ := lastOpenHandle_mono boards 0 bid j hj hokj hjid
    rw [hlk] at hsome2
    obtain rfl : h2 = h := (Option.some.inj hsome2).symm
    omega
  constructor
  · rw [hfields.2.2.2.1]
    exact hcore
  · rw [hfields.2.2.1, List.map_map]
    exact hcore

/-- Witness for C10: two boards share id `BZ` and both open; the theorem
yields that the first transport (index 0) is neither closed nor written. -/
theorem c10_table_keyed_by_board_id_witness :
    0 ∉ (broadcast_command
        [(⟨"R1".data, "BZ".data, "1.0".data, "w".data, "d".data⟩,
          ⟨OpenOutcome.ok, WriteOutcome.ok, []⟩),
         (⟨"R2".data, "BZ".data, "1.0".data, "w".data, "d".data⟩,
          ⟨OpenOutcome.ok, WriteOutcome.ok, []⟩)]
        ("wave".data)).closed
    ∧ 0 ∉ (broadcast_command
        [(⟨"R1".data, "BZ".data, "1.0".data, "w".data, "d".data⟩,
          ⟨OpenOutcome.ok, WriteOutcome.ok, []⟩),
         (⟨"R2".data, "BZ".data, "1.0".data, "w".data, "d".data⟩,
          ⟨OpenOutcome.ok, WriteOutcome.ok, []⟩)]
        ("wave".data)).writes.map Prod.fst :=
  (c10_table_keyed_by_board_id
    [(⟨"R1".data, "BZ".data, "1.0".data, "w".data, "d".data⟩,
      ⟨OpenOutcome.ok, WriteOutcome.ok, []⟩),
     (⟨"R2".data, "BZ".data, "1.0".data, "w".data, "d".data⟩,
      ⟨OpenOutcome.ok, WriteOutcome.ok, []⟩)]
    ("wave".data)).2.2.2.2.2 0 1 (by decide) (by decide) (by decide)
    (by decide) (by decide) (by decide)
